import Mathlib

set_option maxRecDepth 100000

/-!
Shallow embedding of `src/example/guide/blockchain.py` (class `Blockchain`).
Machine integers are modelled as `Nat` with explicit `% 2 ^ 32` where the
Python `hashlib` SHA-256 works on 32-bit words; Python exceptions are
modelled with `Option` (`none` = the call raises); the wall-clock values
(`time.time()`, `time.strftime`) are passed in as parameters, the float
`timestamp` being carried as its decimal rendering (a `String`) since no
arithmetic is ever performed on it.
-/

namespace Blockchain

/-- 32-bit right rotation on a `Nat` below `2 ^ 32`. -/
def rotr32 (n x : Nat) : Nat :=
  ((x >>> n) ||| (x <<< (32 - n))) % 4294967296

/-- SHA-256 round constants (fractional parts of cube roots of the first 64 primes). -/
def shaK : List Nat :=
  [1116352408, 1899447441, 3049323471, 3921009573, 961987163, 1508970993,
   2453635748, 2870763221, 3624381080, 310598401, 607225278, 1426881987,
   1925078388, 2162078206, 2614888103, 3248222580, 3835390401, 4022224774,
   264347078, 604807628, 770255983, 1249150122, 1555081692, 1996064986,
   2554220882, 2821834349, 2952996808, 3210313671, 3336571891, 3584528711,
   113926993, 338241895, 666307205, 773529912, 1294757372, 1396182291,
   1695183700, 1986661051, 2177026350, 2456956037, 2730485921, 2820302411,
   3259730800, 3345764771, 3516065817, 3600352804, 4094571909, 275423344,
   430227734, 506948616, 659060556, 883997877, 958139571, 1322822218,
   1537002063, 1747873779, 1955562222, 2024104815, 2227730452, 2361852424,
   2428436474, 2756734187, 3204031479, 3329325298]

/-- SHA-256 initial hash value (fractional parts of square roots of the first 8 primes). -/
def shaH0 : List Nat :=
  [1779033703, 3144134277, 1013904242, 2773480762,
   1359893119, 2600822924, 528734635, 1541459225]

/-- Message-schedule sigma-0. -/
def ssig0 (x : Nat) : Nat := (rotr32 7 x) ^^^ (rotr32 18 x) ^^^ (x >>> 3)

/-- Message-schedule sigma-1. -/
def ssig1 (x : Nat) : Nat := (rotr32 17 x) ^^^ (rotr32 19 x) ^^^ (x >>> 10)

/-- Compression Sigma-0. -/
def bsig0 (x : Nat) : Nat := (rotr32 2 x) ^^^ (rotr32 13 x) ^^^ (rotr32 22 x)

/-- Compression Sigma-1. -/
def bsig1 (x : Nat) : Nat := (rotr32 6 x) ^^^ (rotr32 11 x) ^^^ (rotr32 25 x)

/-- Choose function; the complement of `e` is taken within 32 bits. -/
def chFn (e f g : Nat) : Nat := (e &&& f) ^^^ ((e ^^^ 0xffffffff) &&& g)

/-- Majority function. -/
def majFn (a b c : Nat) : Nat := (a &&& b) ^^^ (a &&& c) ^^^ (b &&& c)

/-- Group a byte list into big-endian 32-bit words. -/
def bytesToWords : List Nat → List Nat
  | a :: b :: c :: d :: rest => (a * 16777216 + b * 65536 + c * 256 + d) :: bytesToWords rest
  | _ => []

/-- Extend the 16-word schedule by `n` further words (fuel-based, structural). -/
def extendW : Nat → List Nat → List Nat
  | 0, w => w
  | n + 1, w =>
    let i := w.length
    let nw := (w.getD (i - 16) 0 + ssig0 (w.getD (i - 15) 0) +
               w.getD (i - 7) 0 + ssig1 (w.getD (i - 2) 0)) % 4294967296
    extendW n (w ++ [nw])

/-- One SHA-256 compression round: state is the 8-register list. -/
def compressStep (st : List Nat) (kw : Nat × Nat) : List Nat :=
  match st with
  | [a, b, c, d, e, f, g, h] =>
    let t1 := (h + bsig1 e + chFn e f g + kw.1 + kw.2) % 4294967296
    let t2 := (bsig0 a + majFn a b c) % 4294967296
    [(t1 + t2) % 4294967296, a, b, c, (d + t1) % 4294967296, e, f, g]
  | _ => st

/-- Process one 64-byte chunk, updating the 8-word hash state. -/
def processChunk (h : List Nat) (chunk : List Nat) : List Nat :=
  let w := extendW 48 (bytesToWords chunk)
  let st := (shaK.zip w).foldl compressStep h
  (h.zip st).map (fun p => (p.1 + p.2) % 4294967296)

/-- Big-endian bytes of `n`, `k` bytes wide. -/
def beBytes : Nat → Nat → List Nat
  | 0, _ => []
  | k + 1, n => (n >>> (8 * k)) % 256 :: beBytes k n

/-- SHA-256 padding: append `0x80`, zeros to 56 mod 64, then the 64-bit bit length. -/
def padMessage (m : List Nat) : List Nat :=
  let L := m.length
  m ++ [0x80] ++ List.replicate ((120 - ((L + 1) % 64)) % 64) 0 ++ beBytes 8 (L * 8)

/-- Split into 64-byte chunks (fuel-based so the kernel can reduce it). -/
def chunks64Aux : Nat → List Nat → List (List Nat)
  | 0, _ => []
  | _, [] => []
  | fuel + 1, l => l.take 64 :: chunks64Aux fuel (l.drop 64)

/-- Split a byte list into 64-byte chunks. -/
def chunks64 (l : List Nat) : List (List Nat) := chunks64Aux (l.length + 1) l

/-- The eight 32-bit output words of SHA-256 on a byte message. -/
def sha256Words (m : List Nat) : List Nat :=
  (chunks64 (padMessage m)).foldl processChunk shaH0

/-- Lowercase hex digit for a nibble. -/
def hexDigit (n : Nat) : Char :=
  if n < 10 then Char.ofNat (48 + n) else Char.ofNat (87 + n)

/-- Fixed-width (8 hex chars) rendering of a 32-bit word. -/
def wordHex (w : Nat) : List Char :=
  [hexDigit ((w >>> 28) &&& 15), hexDigit ((w >>> 24) &&& 15),
   hexDigit ((w >>> 20) &&& 15), hexDigit ((w >>> 16) &&& 15),
   hexDigit ((w >>> 12) &&& 15), hexDigit ((w >>> 8) &&& 15),
   hexDigit ((w >>> 4) &&& 15), hexDigit (w &&& 15)]

/-- The lowercase hex SHA-256 digest of a byte message, as a char list.
Models Python `hashlib.sha256(m).hexdigest()`. -/
def sha256hexChars (m : List Nat) : List Char :=
  ((sha256Words m).map wordHex).flatten

/-- Decimal digits of a natural number (fuel-based so the kernel reduces it). -/
def natDigitsAux : Nat → Nat → List Char
  | 0, _ => []
  | fuel + 1, n =>
    if n = 0 then [] else natDigitsAux fuel (n / 10) ++ [Char.ofNat (48 + n % 10)]

/-- Decimal string of a natural number, as Python `str` renders it. -/
def natStr (n : Nat) : List Char :=
  if n = 0 then ['0'] else natDigitsAux n n

/-- Decimal string of an integer, as the Python f-string renders an `int`. -/
def intStr : Int → List Char
  | .ofNat n => natStr n
  | .negSucc n => '-' :: natStr (n + 1)

/-- UTF-8 bytes of one Unicode code point. -/
def utf8Char (c : Char) : List Nat :=
  let n := c.toNat
  if n < 0x80 then [n]
  else if n < 0x800 then [0xc0 ||| (n >>> 6), 0x80 ||| (n &&& 0x3f)]
  else if n < 0x10000 then
    [0xe0 ||| (n >>> 12), 0x80 ||| ((n >>> 6) &&& 0x3f), 0x80 ||| (n &&& 0x3f)]
  else
    [0xf0 ||| (n >>> 18), 0x80 ||| ((n >>> 12) &&& 0x3f),
     0x80 ||| ((n >>> 6) &&& 0x3f), 0x80 ||| (n &&& 0x3f)]

/-- UTF-8 encoding of a char list, modelling Python `str.encode()`. -/
def utf8Bytes (cs : List Char) : List Nat :=
  (cs.map utf8Char).flatten

/-- JSON escape of one character as `json.dumps` (default `ensure_ascii=True`)
renders it: `"` and backslash escaped, control characters and non-ASCII as
`\uXXXX` (with a surrogate pair above the BMP). -/
def jsonEscapeChar (c : Char) : List Char :=
  let n := c.toNat
  let hex4 : Nat → List Char := fun m =>
    [hexDigit ((m >>> 12) &&& 15), hexDigit ((m >>> 8) &&& 15),
     hexDigit ((m >>> 4) &&& 15), hexDigit (m &&& 15)]
  if n = 34 then ['\\', '"']
  else if n = 92 then ['\\', '\\']
  else if n = 8 then ['\\', 'b']
  else if n = 9 then ['\\', 't']
  else if n = 10 then ['\\', 'n']
  else if n = 12 then ['\\', 'f']
  else if n = 13 then ['\\', 'r']
  else if n < 32 then '\\' :: 'u' :: hex4 n
  else if n < 127 then [c]
  else if n < 0x10000 then '\\' :: 'u' :: hex4 n
  else
    ('\\' :: 'u' :: hex4 (0xd800 + ((n - 0x10000) >>> 10))) ++
    ('\\' :: 'u' :: hex4 (0xdc00 + ((n - 0x10000) &&& 0x3ff)))

/-- A JSON string literal for `s`, as `json.dumps` renders it. -/
def jsonStr (s : String) : List Char :=
  '"' :: (s.data.map jsonEscapeChar).flatten ++ ['"']

/-- One pending or stored transaction: the dict built by `new_transaction`. -/
structure Transaction where
  sender : String
  recipient : String
  amount : Int
  deriving DecidableEq

/-- One block: the dict built by `new_block`.  `timestamp` carries the decimal
rendering of the `time.time()` float (serialized unquoted, as a JSON number);
`timestamp_date` is the `time.strftime` string. -/
structure Block where
  index : Nat
  timestamp : String
  timestamp_date : String
  transactions : List Transaction
  proof : Int
  previous_hash : String
  deriving DecidableEq

/-- `json.dumps` of a transaction dict with `sort_keys=True`
(keys in order `amount`, `recipient`, `sender`; default separators). -/
def txJson (t : Transaction) : List Char :=
  '{' :: ('"' :: "amount".data ++ ['"', ':', ' ']) ++ intStr t.amount ++
  (',' :: ' ' :: '"' :: "recipient".data ++ ['"', ':', ' ']) ++ jsonStr t.recipient ++
  (',' :: ' ' :: '"' :: "sender".data ++ ['"', ':', ' ']) ++ jsonStr t.sender ++ ['}']

/-- `json.dumps` of a transaction list. -/
def txsJson : List Transaction → List Char
  | [] => ['[', ']']
  | t :: ts =>
    '[' :: txJson t ++ (ts.map (fun u => ',' :: ' ' :: txJson u)).flatten ++ [']']

/-- `json.dumps(block, sort_keys=True)`: keys in lexicographic order
`index`, `previous_hash`, `proof`, `timestamp`, `timestamp_date`,
`transactions`; the float `timestamp` appears unquoted. -/
def blockJson (b : Block) : List Char :=
  '{' :: ('"' :: "index".data ++ ['"', ':', ' ']) ++ natStr b.index ++
  (',' :: ' ' :: '"' :: "previous_hash".data ++ ['"', ':', ' ']) ++ jsonStr b.previous_hash ++
  (',' :: ' ' :: '"' :: "proof".data ++ ['"', ':', ' ']) ++ intStr b.proof ++
  (',' :: ' ' :: '"' :: "timestamp".data ++ ['"', ':', ' ']) ++ b.timestamp.data ++
  (',' :: ' ' :: '"' :: "timestamp_date".data ++ ['"', ':', ' ']) ++ jsonStr b.timestamp_date ++
  (',' :: ' ' :: '"' :: "transactions".data ++ ['"', ':', ' ']) ++ txsJson b.transactions ++ ['}']

/-- `Blockchain.hash`: lowercase hex SHA-256 of the canonical (sorted-keys)
JSON serialization of the block. -/
def hash (block : Block) : String :=
  String.mk (sha256hexChars (utf8Bytes (blockJson block)))

/-- `Blockchain.valid_proof`: SHA-256 the concatenated decimal strings of the
two proofs and test whether the first 4 hex characters are `"0000"`. -/
def valid_proof (last_proof proof : Int) : Bool :=
  let guess := utf8Bytes (intStr last_proof ++ intStr proof)
  let guess_hash := sha256hexChars guess
  guess_hash.take 4 == "0000".data

/-- `Blockchain.proof_of_work`: the `while` loop starts at `proof = 0` and
increments until `valid_proof` holds, so it terminates exactly when some
valid proof exists and then returns the least one.  The termination
condition is taken as the hypothesis `h`. -/
def proof_of_work (last_proof : Int) (h : ∃ p : Nat, valid_proof last_proof p = true) : Nat :=
  Nat.find h

/-- The mutable attributes of a `Blockchain` instance. -/
structure State where
  chain : List Block
  current_transactions : List Transaction
  nodes : Finset String
  deriving DecidableEq

/-- `Blockchain.new_block`: builds the block dict (the `previous_hash` field
is `previous_hash or self.hash(self.chain[-1])`, so a `none` or `""` argument
falls back to hashing the tip — raising `IndexError`, i.e. `none`, when the
chain is empty), resets `current_transactions`, appends to the chain and
returns the block.  The two wall-clock strings are passed in. -/
def new_block (s : State) (proof : Int) (previous_hash : Option String)
    (ts tsd : String) : Option (Block × State) :=
  let ph : Option String :=
    match previous_hash with
    | some p => if p = "" then (s.chain.getLast?).map hash else some p
    | none => (s.chain.getLast?).map hash
  match ph with
  | none => none
  | some p =>
    let block : Block :=
      { index := s.chain.length + 1, timestamp := ts, timestamp_date := tsd,
        transactions := s.current_transactions, proof := proof, previous_hash := p }
    some (block, { chain := s.chain ++ [block], current_transactions := [],
                   nodes := s.nodes })

/-- `Blockchain.__init__`: empty chain, transactions and node set, then the
genesis call `new_block(previous_hash="1", proof=100)` (which always
succeeds since `"1"` is truthy). -/
def init (ts tsd : String) : State :=
  let s0 : State := { chain := [], current_transactions := [], nodes := ∅ }
  match new_block s0 100 (some "1") ts tsd with
  | some (_, s) => s
  | none => s0

/-- `Blockchain.last_block`: `self.chain[-1]`, raising on an empty chain. -/
def last_block (s : State) : Option Block :=
  s.chain.getLast?

/-- `Blockchain.new_transaction`: append the transaction dict, then return
`self.last_block['index'] + 1`.  The append happens before `last_block` is
read, so the returned state always holds the new transaction; the result
index is `none` when the chain is empty (`IndexError`). -/
def new_transaction (s : State) (sender recipient : String) (amount : Int) :
    State × Option Nat :=
  let s' : State :=
    { chain := s.chain,
      current_transactions :=
        s.current_transactions ++ [{ sender := sender, recipient := recipient, amount := amount }],
      nodes := s.nodes }
  (s', (last_block s').map (fun b => b.index + 1))

/-- `Blockchain.register_node`, taking the `urlparse(address)` output as the
pair (`netloc`, `path`).  If `netloc` is non-empty it is added; otherwise a
non-empty `path` is added; otherwise `ValueError` is raised (`none`) before
any mutation.  In the non-raising cases the trailing unconditional
`self.nodes.add(parse_url.netloc)` then adds `netloc` again. -/
def register_node (s : State) (netloc path : String) : Option State :=
  if netloc ≠ "" then
    some { chain := s.chain, current_transactions := s.current_transactions,
           nodes := insert netloc (insert netloc s.nodes) }
  else if path ≠ "" then
    some { chain := s.chain, current_transactions := s.current_transactions,
           nodes := insert netloc (insert path s.nodes) }
  else none

/-- The loop body test of `Blockchain.valid_chain` applied along the tail:
each block must link by hash to its predecessor and carry a valid proof. -/
def validFrom (last : Block) : List Block → Bool
  | [] => true
  | block :: rest =>
    if block.previous_hash ≠ hash last then false
    else if ¬ valid_proof last.proof block.proof then false
    else validFrom block rest

/-- `Blockchain.valid_chain`: reads `chain[0]` first (raising `IndexError`,
i.e. `none`, on an empty chain), then walks adjacent pairs. -/
def valid_chain (chain : List Block) : Option Bool :=
  match chain with
  | [] => none
  | b0 :: rest => some (validFrom b0 rest)

/-- The outcome of `requests.get` on one peer during `resolve_conflicts`:
either the request raises (connection failure), or a response arrives with a
status code and — when read — the reported `length` and `chain` fields. -/
inductive FetchResult where
  | failure
  | response (status : Nat) (length : Int) (chain : List Block)
  deriving DecidableEq

/-- The sweep of `Blockchain.resolve_conflicts` over the peer responses in
iteration order: a raising fetch propagates (`none`); a non-200 response is
skipped; a 200 response with reported `length > max_length` is validated
(`valid_chain` may itself raise) and, if valid, becomes the new candidate. -/
def resolveLoop (max_length : Int) (new_chain : Option (List Block)) :
    List FetchResult → Option (Option (List Block))
  | [] => some new_chain
  | FetchResult.failure :: _ => none
  | FetchResult.response status length chain :: rest =>
    if status = 200 then
      if length > max_length then
        match valid_chain chain with
        | none => none
        | some true => resolveLoop length (some chain) rest
        | some false => resolveLoop max_length new_chain rest
      else resolveLoop max_length new_chain rest
    else resolveLoop max_length new_chain rest

/-- `Blockchain.resolve_conflicts` on a local chain, given the peer fetch
outcomes in iteration order.  Returns `none` when an exception propagates;
otherwise `(replaced, final_chain)`, where the final `if new_chain:` uses
Python truthiness (an empty candidate list would count as absent). -/
def resolve_conflicts (localChain : List Block) (fetches : List FetchResult) :
    Option (Bool × List Block) :=
  (resolveLoop (localChain.length : Int) none fetches).map fun nc =>
    match nc with
    | some c => if c = [] then (false, localChain) else (true, c)
    | none => (false, localChain)

/-- One fetch qualifies to replace a local chain of length `n`: it succeeded
with status 200, reported a length strictly above `n`, and its chain passes
`valid_chain`. -/
def qualifies (n : Int) : FetchResult → Bool
  | FetchResult.failure => false
  | FetchResult.response status length chain =>
    status = 200 ∧ length > n ∧ valid_chain chain = some true

/-- The chain carried by a fetch outcome, when there is one. -/
def chainOf : FetchResult → Option (List Block)
  | FetchResult.failure => none
  | FetchResult.response _ _ chain => some chain

/-- The per-pair check of `valid_chain`: the successor links to the hash of
its predecessor and carries a valid proof relative to it. -/
def adjacentOk (a b : Block) : Prop :=
  b.previous_hash = hash a ∧ valid_proof a.proof b.proof = true

/-- A concrete sample transaction. -/
def tx0 : Transaction := ⟨"a", "b", 5⟩

/-- A concrete genesis-shaped sample block. -/
def blk0 : Block := ⟨1, "0", "d", [], 100, "1"⟩

/-- A second concrete sample block, differing from `blk0` in every field but the index. -/
def blk1 : Block := ⟨1, "9", "e", [], 7, "2"⟩

/-- The block `new_block` mints from `st0` with proof 100 and previous hash `"1"`. -/
def blkT : Block := ⟨1, "0", "d", [tx0], 100, "1"⟩

/-- A concrete pre-genesis state holding one pending transaction. -/
def st0 : State := ⟨[], [tx0], ∅⟩

/-- The state after minting `blkT` from `st0`. -/
def st1 : State := ⟨[blkT], [], ∅⟩

/-- A concrete state holding only the sample genesis block. -/
def stG : State := ⟨[blk0], [], ∅⟩

end Blockchain

lemma compressStep_length (st : List Nat) (kw : Nat × Nat) (h : st.length = 8) :
    (Blockchain.compressStep st kw).length = 8 := by
  unfold Blockchain.compressStep
  split
  · simp
  · exact h

lemma compressFold_length (l : List (Nat × Nat)) (st : List Nat) (h : st.length = 8) :
    (l.foldl Blockchain.compressStep st).length = 8 := by
  induction l generalizing st with
  | nil => simpa using h
  | cons kw l ih => exact ih _ (compressStep_length st kw h)

lemma processChunk_length (h c : List Nat) (hh : h.length = 8) :
    (Blockchain.processChunk h c).length = 8 := by
  have hst := compressFold_length (Blockchain.shaK.zip (Blockchain.extendW 48 (Blockchain.bytesToWords c))) h hh
  simp [Blockchain.processChunk, hst, hh]

lemma processFold_length (cs : List (List Nat)) (h : List Nat) (hh : h.length = 8) :
    (cs.foldl Blockchain.processChunk h).length = 8 := by
  induction cs generalizing h with
  | nil => simpa using hh
  | cons c cs ih => exact ih _ (processChunk_length h c hh)

lemma sha256Words_length (m : List Nat) : (Blockchain.sha256Words m).length = 8 :=
  processFold_length _ _ rfl

lemma wordHexFlatten_length (ws : List Nat) :
    ((ws.map Blockchain.wordHex).flatten).length = 8 * ws.length := by
  induction ws with
  | nil => simp
  | cons w ws ih => simp [Blockchain.wordHex, ih]; ring

lemma sha256hexChars_length (m : List Nat) : (Blockchain.sha256hexChars m).length = 64 := by
  unfold Blockchain.sha256hexChars
  rw [wordHexFlatten_length, sha256Words_length]

lemma take4_all_zero_iff (l : List Char) (hl : l.length = 4) :
    l = ['0', '0', '0', '0'] ↔ ∀ c ∈ l, c = '0' := by
  rcases l with _ | ⟨a, _ | ⟨b, _ | ⟨c, _ | ⟨d, rest⟩⟩⟩⟩ <;> simp_all

lemma valid_proof_iff (a p : Int) :
    Blockchain.valid_proof a p = true ↔
      (Blockchain.sha256hexChars
          (Blockchain.utf8Bytes (Blockchain.intStr a ++ Blockchain.intStr p))).take 4 =
        ['0', '0', '0', '0'] := by
  simp [Blockchain.valid_proof]

lemma valid_chain_true_ne_nil (c : List Blockchain.Block)
    (h : Blockchain.valid_chain c = some true) : c ≠ [] := by
  cases c <;> simp_all [Blockchain.valid_chain]

lemma qualifies_mono (m m' : Int) (f : Blockchain.FetchResult)
    (hm : m ≤ m') (hq : Blockchain.qualifies m' f = true) :
    Blockchain.qualifies m f = true := by
  cases f with
  | failure => simp_all [Blockchain.qualifies]
  | response status length chain =>
    simp only [Blockchain.qualifies, decide_eq_true_eq] at hq ⊢
    exact ⟨hq.1, lt_of_le_of_lt hm hq.2.1, hq.2.2⟩

lemma resolveLoop_some_stays (fs : List Blockchain.FetchResult) :
    ∀ (m : Int) (c : List Blockchain.Block) (r : Option (List Blockchain.Block)),
      Blockchain.resolveLoop m (some c) fs = some r → ∃ c', r = some c' := by
  induction fs with
  | nil => intro m c r h; exact ⟨c, (Option.some_inj.mp h).symm⟩
  | cons f fs ih =>
    intro m c r h
    cases f with
    | failure => simp [Blockchain.resolveLoop] at h
    | response status length chain =>
      simp only [Blockchain.resolveLoop] at h
      by_cases h200 : status = 200
      · rw [if_pos h200] at h
        by_cases hlen : length > m
        · rw [if_pos hlen] at h
          cases hv : Blockchain.valid_chain chain with
          | none => rw [hv] at h; simp at h
          | some b =>
            rw [hv] at h
            cases b with
            | true => exact ih _ _ _ h
            | false => exact ih _ _ _ h
        · rw [if_neg hlen] at h; exact ih _ _ _ h
      · rw [if_neg h200] at h; exact ih _ _ _ h

lemma resolveLoop_complete (fs : List Blockchain.FetchResult) :
    ∀ (m : Int) (nc : Option (List Blockchain.Block)) (r : Option (List Blockchain.Block)),
      Blockchain.resolveLoop m nc fs = some r →
      (∃ f ∈ fs, Blockchain.qualifies m f = true) → ∃ c, r = some c := by
  induction fs with
  | nil => intro m nc r _ hex; simp at hex
  | cons f fs ih =>
    intro m nc r h hex
    cases f with
    | failure => simp [Blockchain.resolveLoop] at h
    | response status length chain =>
      simp only [Blockchain.resolveLoop] at h
      by_cases h200 : status = 200
      · rw [if_pos h200] at h
        by_cases hlen : length > m
        · rw [if_pos hlen] at h
          cases hv : Blockchain.valid_chain chain with
          | none => rw [hv] at h; simp at h
          | some b =>
            rw [hv] at h
            cases b with
            | true => exact resolveLoop_some_stays fs _ _ _ h
            | false =>
              refine ih _ _ _ h ?_
              rcases hex with ⟨g, hg, hq⟩
              rcases List.mem_cons.mp hg with rfl | hmem
              · simp [Blockchain.qualifies, hv] at hq
              · exact ⟨g, hmem, hq⟩
        · rw [if_neg hlen] at h
          refine ih _ _ _ h ?_
          rcases hex with ⟨g, hg, hq⟩
          rcases List.mem_cons.mp hg with rfl | hmem
          · simp [Blockchain.qualifies, hlen] at hq
          · exact ⟨g, hmem, hq⟩
      · rw [if_neg h200] at h
        refine ih _ _ _ h ?_
        rcases hex with ⟨g, hg, hq⟩
        rcases List.mem_cons.mp hg with rfl | hmem
        · simp [Blockchain.qualifies, h200] at hq
        · exact ⟨g, hmem, hq⟩

lemma resolveLoop_sound (fs : List Blockchain.FetchResult) :
    ∀ (m : Int) (nc : Option (List Blockchain.Block)) (c : List Blockchain.Block),
      Blockchain.resolveLoop m nc fs = some (some c) →
      nc = some c ∨
        ∃ f ∈ fs, Blockchain.qualifies m f = true ∧ Blockchain.chainOf f = some c := by
  induction fs with
  | nil => intro m nc c h; exact Or.inl (Option.some_inj.mp h)
  | cons f fs ih =>
    intro m nc c h
    cases f with
    | failure => simp [Blockchain.resolveLoop] at h
    | response status length chain =>
      simp only [Blockchain.resolveLoop] at h
      by_cases h200 : status = 200
      · rw [if_pos h200] at h
        by_cases hlen : length > m
        · rw [if_pos hlen] at h
          cases hv : Blockchain.valid_chain chain with
          | none => rw [hv] at h; simp at h
          | some b =>
            rw [hv] at h
            cases b with
            | true =>
              rcases ih _ _ _ h with hc | ⟨g, hmem, hq, hch⟩
              · refine Or.inr ⟨_, List.mem_cons_self _ _, ?_, ?_⟩
                · simp [Blockchain.qualifies, h200, hlen, hv]
                · simpa [Blockchain.chainOf] using (Option.some_inj.mp hc)
              · exact Or.inr ⟨g, List.mem_cons_of_mem _ hmem,
                  qualifies_mono m length g (le_of_lt hlen) hq, hch⟩
            | false =>
              rcases ih _ _ _ h with hc | ⟨g, hmem, hq, hch⟩
              · exact Or.inl hc
              · exact Or.inr ⟨g, List.mem_cons_of_mem _ hmem, hq, hch⟩
        · rw [if_neg hlen] at h
          rcases ih _ _ _ h with hc | ⟨g, hmem, hq, hch⟩
          · exact Or.inl hc
          · exact Or.inr ⟨g, List.mem_cons_of_mem _ hmem, hq, hch⟩
      · rw [if_neg h200] at h
        rcases ih _ _ _ h with hc | ⟨g, hmem, hq, hch⟩
        · exact Or.inl hc
        · exact Or.inr ⟨g, List.mem_cons_of_mem _ hmem, hq, hch⟩

lemma resolveLoop_skip_non200 (pre : List Blockchain.FetchResult) :
    ∀ (m : Int) (nc : Option (List Blockchain.Block)) (status : Nat) (length : Int)
      (chain : List Blockchain.Block) (post : List Blockchain.FetchResult),
      status ≠ 200 →
      Blockchain.resolveLoop m nc
          (pre ++ Blockchain.FetchResult.response status length chain :: post) =
        Blockchain.resolveLoop m nc (pre ++ post) := by
  induction pre with
  | nil =>
    intro m nc status length chain post hs
    simp [Blockchain.resolveLoop, hs]
  | cons f pre ih =>
    intro m nc status length chain post hs
    cases f with
    | failure => simp [Blockchain.resolveLoop]
    | response st le ch =>
      simp only [List.cons_append, Blockchain.resolveLoop]
      by_cases h200 : st = 200
      · rw [if_pos h200, if_pos h200]
        by_cases hlen : le > m
        · rw [if_pos hlen, if_pos hlen]
          cases hv : Blockchain.valid_chain ch with
          | none => rfl
          | some b => cases b <;> simp [ih _ _ _ _ _ _ hs]
        · rw [if_neg hlen, if_neg hlen]; exact ih _ _ _ _ _ _ hs
      · rw [if_neg h200, if_neg h200]; exact ih _ _ _ _ _ _ hs

lemma resolveLoop_failure_none (pre : List Blockchain.FetchResult) :
    ∀ (m : Int) (nc : Option (List Blockchain.Block)) (post : List Blockchain.FetchResult),
      Blockchain.resolveLoop m nc (pre ++ Blockchain.FetchResult.failure :: post) = none := by
  induction pre with
  | nil => intro m nc post; simp [Blockchain.resolveLoop]
  | cons f pre ih =>
    intro m nc post
    cases f with
    | failure => simp [Blockchain.resolveLoop]
    | response st le ch =>
      simp only [List.cons_append, Blockchain.resolveLoop]
      by_cases h200 : st = 200
      · rw [if_pos h200]
        by_cases hlen : le > m
        · rw [if_pos hlen]
          cases hv : Blockchain.valid_chain ch with
          | none => rfl
          | some b => cases b <;> simp [ih]
        · rw [if_neg hlen]; exact ih _ _ _
      · rw [if_neg h200]; exact ih _ _ _

lemma validFrom_iff (last : Blockchain.Block) (rest : List Blockchain.Block) :
    Blockchain.validFrom last rest = true ↔
      List.Chain' Blockchain.adjacentOk (last :: rest) := by
  induction rest generalizing last with
  | nil => simp [Blockchain.validFrom]
  | cons b rest ih =>
    by_cases h1 : b.previous_hash = Blockchain.hash last
    · by_cases h2 : Blockchain.valid_proof last.proof b.proof = true
      · simp [Blockchain.validFrom, h1, h2, ih b, Blockchain.adjacentOk]
      · simp [Blockchain.validFrom, h1, h2, Blockchain.adjacentOk]
    · simp [Blockchain.validFrom, h1, Blockchain.adjacentOk]

lemma sha256_matches_abc_vector :
    Blockchain.sha256hexChars [97, 98, 99] =
      "ba7816bf8f01cfea414140de5dae2223b00361a396177a9cb410ff61f20015ad".data := by
  decide

lemma sha256_matches_empty_vector :
    Blockchain.sha256hexChars [] =
      "e3b0c44298fc1c149afbf4c8996fb92427ae41e4649b934ca495991b7852b855".data := by
  decide

lemma sha256_matches_two_chunk_vector :
    Blockchain.sha256hexChars (List.replicate 56 97) =
      "b35439a4ac6f0948b6d6f9e3c6af0f5f590ce20f1bde7090ef7970686ec6738a".data := by
  decide

lemma hash_matches_hashlib_empty_txs :
    Blockchain.hash ⟨1, "1234.5678", "2020-01-01 00:00:00", [], 100, "1"⟩ =
      "0dd178d3e79a10fb36cb82b46ca1e9ad9c844f6a9ba8dd96e9e6a01e982c4e1e" := by
  decide

lemma hash_matches_hashlib_one_tx :
    Blockchain.hash ⟨1, "1234.5678", "2020-01-01 00:00:00", [⟨"a", "b", 5⟩], 100, "1"⟩ =
      "11777842a0050b96ab63d5bd440adf14cd8efc7192e7ac8c5e21d176c70d4fbb" := by
  decide

lemma valid_proof_100_35293 : Blockchain.valid_proof 100 35293 = true := by decide

lemma not_valid_proof_100_35292 : Blockchain.valid_proof 100 35292 = false := by decide

/-- C5: a freshly constructed `Blockchain` has a chain of exactly one block
with `index = 1`, `previous_hash = "1"`, `proof = 100` and an empty
transaction list, and the pending-transaction pool is empty. -/
theorem genesis_invariant (ts tsd : String) :
    (Blockchain.init ts tsd).chain =
      [{ index := 1, timestamp := ts, timestamp_date := tsd, transactions := [],
         proof := 100, previous_hash := "1" }] ∧
    (Blockchain.init ts tsd).current_transactions = [] :=
  ⟨rfl, rfl⟩

/-- C4 counterexample: on the empty chain `valid_chain` reads `chain[0]` and
raises `IndexError` (modelled `none`) instead of returning `true` as claimed. -/
theorem valid_chain_empty_counterexample :
    Blockchain.valid_chain ([] : List Blockchain.Block) = none ∧
    Blockchain.valid_chain ([] : List Blockchain.Block) ≠ some true :=
  ⟨rfl, by simp [Blockchain.valid_chain]⟩

/-- C4 amended: `valid_chain` returns true for every chain of exactly one
block, but on the empty chain it raises rather than returning true. -/
theorem valid_chain_singleton (b : Blockchain.Block) :
    Blockchain.valid_chain [b] = some true ∧
    Blockchain.valid_chain ([] : List Blockchain.Block) = none :=
  ⟨rfl, rfl⟩

/-- C3: for every chain of at least two blocks, `valid_chain` returns true
iff every adjacent pair links by hash and passes `valid_proof`; only
adjacent pairs are consulted, so the first block's own fields are never
checked in isolation. -/
theorem valid_chain_characterization (c : List Blockchain.Block) (h : 2 ≤ c.length) :
    Blockchain.valid_chain c = some true ↔ List.Chain' Blockchain.adjacentOk c := by
  rcases c with _ | ⟨b0, rest⟩
  · simp at h
  · simpa [Blockchain.valid_chain] using validFrom_iff b0 rest

/-- Witness for C3 at a concrete two-block chain. -/
theorem valid_chain_characterization_witness :
    Blockchain.valid_chain [Blockchain.blk0, Blockchain.blk1] = some true ↔
      List.Chain' Blockchain.adjacentOk [Blockchain.blk0, Blockchain.blk1] :=
  valid_chain_characterization [Blockchain.blk0, Blockchain.blk1] (by decide)

/-- C8: `hash` is pure and deterministic: repeated calls agree, two blocks
with equal fields hash to the same digest, and the digest is the 64-char
lowercase hex SHA-256 rendering. -/
theorem hash_deterministic (b₁ b₂ : Blockchain.Block)
    (h : b₁.index = b₂.index ∧ b₁.timestamp = b₂.timestamp ∧
         b₁.timestamp_date = b₂.timestamp_date ∧ b₁.transactions = b₂.transactions ∧
         b₁.proof = b₂.proof ∧ b₁.previous_hash = b₂.previous_hash) :
    Blockchain.hash b₁ = Blockchain.hash b₁ ∧
    Blockchain.hash b₁ = Blockchain.hash b₂ ∧
    (Blockchain.hash b₁).length = 64 := by
  obtain ⟨h1, h2, h3, h4, h5, h6⟩ := h
  have hb : b₁ = b₂ := by cases b₁; cases b₂; simp_all
  subst hb
  exact ⟨rfl, rfl, sha256hexChars_length _⟩

/-- Witness for C8 at a concrete block. -/
theorem hash_deterministic_witness :
    Blockchain.hash Blockchain.blk0 = Blockchain.hash Blockchain.blk0 ∧
    Blockchain.hash Blockchain.blk0 = Blockchain.hash Blockchain.blk0 ∧
    (Blockchain.hash Blockchain.blk0).length = 64 :=
  hash_deterministic Blockchain.blk0 Blockchain.blk0 ⟨rfl, rfl, rfl, rfl, rfl, rfl⟩

/-- C2: `valid_proof` holds iff the first 4 of the 64 hex characters of the
SHA-256 digest of the concatenated decimal strings are all `'0'`, and
whenever the brute-force search terminates (some valid proof exists),
`proof_of_work` returns the least valid proof, which in particular is valid. -/
theorem valid_proof_and_proof_of_work_spec (a : Int)
    (h : ∃ p : Nat, Blockchain.valid_proof a p = true) :
    (∀ p : Int,
      Blockchain.valid_proof a p = true ↔
        ((Blockchain.sha256hexChars
            (Blockchain.utf8Bytes (Blockchain.intStr a ++ Blockchain.intStr p))).length = 64 ∧
         ∀ c ∈ (Blockchain.sha256hexChars
            (Blockchain.utf8Bytes (Blockchain.intStr a ++ Blockchain.intStr p))).take 4,
            c = '0')) ∧
    Blockchain.valid_proof a (Blockchain.proof_of_work a h) = true ∧
    (∀ q : Nat, q < Blockchain.proof_of_work a h → Blockchain.valid_proof a q = false) := by
  refine ⟨?_, Nat.find_spec h, ?_⟩
  · intro p
    rw [valid_proof_iff]
    have hlen := sha256hexChars_length
      (Blockchain.utf8Bytes (Blockchain.intStr a ++ Blockchain.intStr p))
    have htake : ((Blockchain.sha256hexChars
        (Blockchain.utf8Bytes (Blockchain.intStr a ++ Blockchain.intStr p))).take 4).length = 4 := by
      simp [List.length_take, hlen]
    constructor
    · intro ht; exact ⟨hlen, (take4_all_zero_iff _ htake).mp ht⟩
    · rintro ⟨-, hz⟩; exact (take4_all_zero_iff _ htake).mpr hz
  · intro q hq
    simpa using Nat.find_min h hq

/-- Witness for C2 at `last_proof = 100`, whose least valid proof is 35293. -/
theorem valid_proof_and_proof_of_work_spec_witness :
    Blockchain.valid_proof 100 (Blockchain.proof_of_work 100 ⟨35293, by decide⟩) = true :=
  (valid_proof_and_proof_of_work_spec 100 ⟨35293, by decide⟩).2.1

/-- C6: `new_block` snapshots the pending pool into the new block, resets the
pool, gives the block the new chain length as its index, and appends exactly
that block to the chain. -/
theorem new_block_snapshot_reset (s : Blockchain.State) (proof : Int)
    (previous_hash : Option String) (ts tsd : String) (b : Blockchain.Block)
    (s' : Blockchain.State)
    (h : Blockchain.new_block s proof previous_hash ts tsd = some (b, s')) :
    s'.current_transactions = [] ∧
    b.transactions = s.current_transactions ∧
    b.index = s'.chain.length ∧
    s'.chain = s.chain ++ [b] := by
  simp only [Blockchain.new_block] at h
  split at h
  · simp at h
  · simp only [Option.some.injEq, Prod.mk.injEq] at h
    obtain ⟨hb, hs⟩ := h
    subst hb
    subst hs
    refine ⟨rfl, rfl, ?_, rfl⟩
    simp

/-- Witness for C6 at a concrete state with one pending transaction. -/
theorem new_block_snapshot_reset_witness :
    Blockchain.st1.current_transactions = [] ∧
    Blockchain.blkT.transactions = Blockchain.st0.current_transactions ∧
    Blockchain.blkT.index = Blockchain.st1.chain.length ∧
    Blockchain.st1.chain = Blockchain.st0.chain ++ [Blockchain.blkT] :=
  new_block_snapshot_reset Blockchain.st0 100 (some "1") "0" "d"
    Blockchain.blkT Blockchain.st1 rfl

/-- C9: on a state with a non-empty chain, `new_transaction` appends exactly
one transaction to the pool, leaves the chain (and node set) unchanged, and
returns the tip block's index plus one. -/
theorem new_transaction_spec (s : Blockchain.State) (sender recipient : String)
    (amount : Int) (h : s.chain ≠ []) :
    ∃ tip, Blockchain.last_block s = some tip ∧
      Blockchain.new_transaction s sender recipient amount =
        ({ chain := s.chain,
           current_transactions := s.current_transactions ++
             [{ sender := sender, recipient := recipient, amount := amount }],
           nodes := s.nodes }, some (tip.index + 1)) := by
  refine ⟨s.chain.getLast h, ?_, ?_⟩
  · simp [Blockchain.last_block, List.getLast?_eq_getLast _ h]
  · simp [Blockchain.new_transaction, Blockchain.last_block, List.getLast?_eq_getLast _ h]

/-- Witness for C9 at a concrete one-block state. -/
theorem new_transaction_spec_witness :
    ∃ tip, Blockchain.last_block Blockchain.stG = some tip ∧
      Blockchain.new_transaction Blockchain.stG "a" "b" 5 =
        ({ chain := Blockchain.stG.chain,
           current_transactions := Blockchain.stG.current_transactions ++
             [{ sender := "a", recipient := "b", amount := 5 }],
           nodes := Blockchain.stG.nodes }, some (tip.index + 1)) :=
  new_transaction_spec Blockchain.stG "a" "b" 5 (by decide)

/-- C10: an address parsing to an empty netloc but non-empty path gets both
the path and the empty string added to the node set (the trailing
unconditional add of the netloc); only an address with neither netloc nor
path raises, before any mutation, so the node set is unchanged then. -/
theorem register_node_empty_netloc (s : Blockchain.State) (netloc path : String) :
    (netloc = "" → path ≠ "" →
      ∃ s', Blockchain.register_node s netloc path = some s' ∧
        s'.nodes = insert "" (insert path s.nodes) ∧
        "" ∈ s'.nodes ∧ path ∈ s'.nodes ∧
        s'.chain = s.chain ∧ s'.current_transactions = s.current_transactions) ∧
    (Blockchain.register_node s netloc path = none ↔ netloc = "" ∧ path = "") := by
  constructor
  · rintro rfl hp
    refine ⟨{ chain := s.chain, current_transactions := s.current_transactions,
              nodes := insert "" (insert path s.nodes) }, ?_, rfl, ?_, ?_, rfl, rfl⟩
    · simp [Blockchain.register_node, hp]
    · exact Finset.mem_insert_self _ _
    · exact Finset.mem_insert_of_mem (Finset.mem_insert_self _ _)
  · constructor
    · intro hn
      by_cases h1 : netloc = ""
      · by_cases h2 : path = ""
        · exact ⟨h1, h2⟩
        · simp [Blockchain.register_node, h1, h2] at hn
      · simp [Blockchain.register_node, h1] at hn
    · rintro ⟨rfl, rfl⟩
      simp [Blockchain.register_node]

/-- Witness for C10 at a bare-host address: path `"192.168.0.5"`, empty netloc. -/
theorem register_node_empty_netloc_witness :
    ∃ s', Blockchain.register_node Blockchain.stG "" "192.168.0.5" = some s' ∧
      s'.nodes = insert "" (insert "192.168.0.5" Blockchain.stG.nodes) ∧
      "" ∈ s'.nodes ∧ "192.168.0.5" ∈ s'.nodes ∧
      s'.chain = Blockchain.stG.chain ∧
      s'.current_transactions = Blockchain.stG.current_transactions :=
  (register_node_empty_netloc Blockchain.stG "" "192.168.0.5").1 rfl (by decide)

/-- C7 counterexample: a peer whose fetch raises is not silently skipped; the
exception aborts `resolve_conflicts` (result `none`), so no
`replaced = false` value is returned as the claim asserts. -/
theorem resolve_failure_counterexample :
    Blockchain.resolve_conflicts [Blockchain.blk0] [Blockchain.FetchResult.failure] = none ∧
    Blockchain.resolve_conflicts [Blockchain.blk0] [Blockchain.FetchResult.failure] ≠
      some (false, [Blockchain.blk0]) :=
  ⟨rfl, by simp [Blockchain.resolve_conflicts, Blockchain.resolveLoop]⟩

/-- C7 amended: a peer returning a non-success (non-200) response is silently
skipped and contributes nothing to the sweep, but a peer whose fetch raises
aborts the whole resolution with the exception propagated. -/
theorem resolve_skip_and_abort (localChain : List Blockchain.Block)
    (pre post : List Blockchain.FetchResult) (status : Nat) (length : Int)
    (peerChain : List Blockchain.Block) (h : status ≠ 200) :
    Blockchain.resolve_conflicts localChain
        (pre ++ Blockchain.FetchResult.response status length peerChain :: post) =
      Blockchain.resolve_conflicts localChain (pre ++ post) ∧
    Blockchain.resolve_conflicts localChain
        (pre ++ Blockchain.FetchResult.failure :: post) = none := by
  constructor
  · unfold Blockchain.resolve_conflicts
    rw [resolveLoop_skip_non200 pre _ _ _ _ _ _ h]
  · unfold Blockchain.resolve_conflicts
    rw [resolveLoop_failure_none pre]
    rfl

/-- Witness for C7 (amended) at a concrete 404 response and a failing fetch. -/
theorem resolve_skip_and_abort_witness :
    Blockchain.resolve_conflicts [Blockchain.blk0]
        ([] ++ Blockchain.FetchResult.response 404 9 [Blockchain.blk1] :: []) =
      Blockchain.resolve_conflicts [Blockchain.blk0] ([] ++ []) ∧
    Blockchain.resolve_conflicts [Blockchain.blk0]
        ([] ++ Blockchain.FetchResult.failure :: []) = none :=
  resolve_skip_and_abort [Blockchain.blk0] [] [] 404 9 [Blockchain.blk1] (by decide)

/-- C1: on a completed sweep, the chain is replaced iff some fetch succeeded
with status 200, a reported length strictly above the local length, and a
chain accepted by `valid_chain`; then the final chain is such a peer's chain
and `replaced = true`; otherwise the local chain is returned unchanged with
`replaced = false`. -/
theorem resolve_conflicts_replacement_rule
    (localChain : List Blockchain.Block) (fetches : List Blockchain.FetchResult)
    (replaced : Bool) (finalChain : List Blockchain.Block)
    (h : Blockchain.resolve_conflicts localChain fetches = some (replaced, finalChain)) :
    (replaced = true ↔
      ∃ f ∈ fetches, Blockchain.qualifies (localChain.length : Int) f = true) ∧
    (replaced = true →
      ∃ f ∈ fetches, Blockchain.qualifies (localChain.length : Int) f = true ∧
        Blockchain.chainOf f = some finalChain) ∧
    (replaced = false → finalChain = localChain) := by
  unfold Blockchain.resolve_conflicts at h
  cases hr : Blockchain.resolveLoop (localChain.length : Int) none fetches with
  | none => rw [hr] at h; simp at h
  | some nc =>
    rw [hr] at h
    cases nc with
    | none =>
      simp only [Option.map_some', Option.some.injEq] at h
      injection h with h1 h2
      subst h1
      subst h2
      refine ⟨⟨fun hf => by simp at hf, fun hex => ?_⟩, fun hf => by simp at hf, fun _ => rfl⟩
      rcases resolveLoop_complete fetches _ none none hr hex with ⟨c, hc⟩
      exact Option.noConfusion hc
    | some c =>
      simp only [Option.map_some', Option.some.injEq] at h
      by_cases hce : c = []
      · subst hce
        rcases resolveLoop_sound fetches _ none [] hr with hcon | ⟨f, hmem, hq, hch⟩
        · exact Option.noConfusion hcon
        · cases f with
          | failure => simp [Blockchain.qualifies] at hq
          | response st le ch =>
            simp only [Blockchain.chainOf, Option.some.injEq] at hch
            subst hch
            simp only [Blockchain.qualifies, decide_eq_true_eq] at hq
            exact absurd rfl (valid_chain_true_ne_nil _ hq.2.2)
      · rw [if_neg hce] at h
        injection h with h1 h2
        subst h1
        subst h2
        refine ⟨⟨fun _ => ?_, fun _ => rfl⟩, fun _ => ?_, fun hf => by simp at hf⟩
        · rcases resolveLoop_sound fetches _ none c hr with hcon | ⟨f, hmem, hq, hch⟩
          · exact Option.noConfusion hcon
          · exact ⟨f, hmem, hq⟩
        · rcases resolveLoop_sound fetches _ none c hr with hcon | ⟨f, hmem, hq, hch⟩
          · exact Option.noConfusion hcon
          · exact ⟨f, hmem, hq, hch⟩

/-- Witness for C1 at a concrete run: one peer reports length 5 with a valid
one-block chain against a local one-block chain, so it replaces. -/
theorem resolve_conflicts_replacement_rule_witness :
    ((true : Bool) = true ↔
      ∃ f ∈ [Blockchain.FetchResult.response 200 5 [Blockchain.blk1]],
        Blockchain.qualifies (([Blockchain.blk0] : List Blockchain.Block).length : Int) f = true) ∧
    ((true : Bool) = true →
      ∃ f ∈ [Blockchain.FetchResult.response 200 5 [Blockchain.blk1]],
        Blockchain.qualifies (([Blockchain.blk0] : List Blockchain.Block).length : Int) f = true ∧
        Blockchain.chainOf f = some [Blockchain.blk1]) ∧
    ((true : Bool) = false → [Blockchain.blk1] = [Blockchain.blk0]) :=
  resolve_conflicts_replacement_rule [Blockchain.blk0]
    [Blockchain.FetchResult.response 200 5 [Blockchain.blk1]] true [Blockchain.blk1] (by decide)
